import Mathlib

/-!
Verification of the wongoji (manuscript-paper) layout engine from `src/app.js`.

The engine is embedded shallowly: JS strings become `List Char` (every
character involved is a single UTF-16 code unit, so one JS code unit is one
`Char`), cells and the layout state become structures, and the closures of
`layout` (`pushCell`, `padToLineEnd`, `trySharePunctuationWithPreviousBox`,
`placeToken`, the token loop and the paragraph loop) become top-level
functions taking the state explicitly.  The `width` configuration value is
kept as an integer-or-NaN value so that the JS coercion
`Number(o.width) || 20` and the behaviour of `%` and `width - col` on
negative widths are reproduced faithfully.
-/

namespace Wongoji

/-- A token: a short string, kept as a list of characters. -/
abbrev Token := List Char

/-- The two-character horizontal-ellipsis glyph literal `"……"` of the source
(each `…` is one UTF-16 code unit U+2026). -/
def ellTok : Token := ['…', '…']

/-- The single-space token. -/
def spaceTok : Token := [' ']

/-- The tab token. -/
def tabTok : Token := ['\t']

/-- A box on paper (`makeCell` in the source). -/
structure Cell where
  char : Token
  used : Bool
deriving DecidableEq, Repr

/-- `makeCell(char = "", used = false)`. -/
def makeCell (char : Token := []) (used : Bool := false) : Cell :=
  ⟨char, used⟩

/-- A JS numeric value as far as the width option is concerned:
`Number(o.width)` yields either NaN or a number (integral in all uses). -/
inductive JSNum where
  | nan : JSNum
  | int : Int → JSNum
deriving DecidableEq, Repr

/-- The merged configuration object `{...DEFAULTS, ...opts}`. -/
structure Config where
  width : JSNum
  indentBoxes : Nat
  countSpaces : Bool
  digitsPerBox : Nat
  requireBlankAfter : List Token
  forbidTypedSpaceAfter : List Token
  shareablePunct : List Token
  twoBoxTokens : List Token
deriving DecidableEq, Repr

/-- The `DEFAULTS` object of the source. -/
def DEFAULTS : Config where
  width := .int 20
  indentBoxes := 1
  countSpaces := true
  digitsPerBox := 2
  requireBlankAfter := [['?'], ['!']]
  forbidTypedSpaceAfter := [['.'], [','], [':'], [';']]
  shareablePunct :=
    [['.'], [','], ['?'], ['!'], [':'], [';'], ['…'], [')'], [']'],
     ['”'], ['’'], ['」'], ['』'], ['》']]
  twoBoxTokens := [['…', '…'], ['―']]

/-- `const width = Number(o.width) || 20;` — NaN and 0 are falsy and fall
back to 20; every other number (negative ones included) is kept. -/
def coerceWidth : JSNum → Int
  | .nan => 20
  | .int n => if n = 0 then 20 else n

/-- First pass of `normalizeText`: `replace(/\r\n/g, "\n")`. -/
def replaceCRLF : List Char → List Char
  | [] => []
  | '\r' :: '\n' :: rest => '\n' :: replaceCRLF rest
  | c :: rest => c :: replaceCRLF rest

/-- Second pass of `normalizeText`: `replace(/\r/g, "\n")`. -/
def replaceCR (s : List Char) : List Char :=
  s.map fun c => if c = '\r' then '\n' else c

/-- `normalizeText` from the source. -/
def normalizeText (s : List Char) : List Char :=
  replaceCR (replaceCRLF s)

/-- `norm.split("\n")` with JS semantics: `"".split("\n") = [""]`,
separators at the ends produce empty pieces. -/
def splitNewline : List Char → List (List Char)
  | [] => [[]]
  | c :: cs =>
    if c = '\n' then [] :: splitNewline cs
    else
      match splitNewline cs with
      | [] => [[c]]
      | p :: ps => (c :: p) :: ps

/-- The loop of `tokenizeParagraph`.  The guard is
`para.slice(i, i + 6) === "……"`: the slice of (up to) six characters is
compared with the two-character literal, and on a match the index advances
by six.  The `Nat` argument bounds the remaining iterations (the loop runs
at most once per remaining character, so the bound is never exhausted when
it starts at the paragraph length). -/
def tokenizeAux : Nat → List Char → List Token
  | _, [] => []
  | 0, _ :: _ => []
  | fuel + 1, c :: cs =>
    if (c :: cs).take 6 = ellTok then
      ellTok :: tokenizeAux fuel ((c :: cs).drop 6)
    else
      [c] :: tokenizeAux fuel cs

/-- `tokenizeParagraph` from the source. -/
def tokenizeParagraph (para : List Char) : List Token :=
  tokenizeAux para.length para

/-- `/^[0-9]$/.test(t)`: the token is exactly one ASCII digit. -/
def isDigitChar (c : Char) : Bool :=
  '0' ≤ c ∧ c ≤ '9'

/-- Digit-token test used by `packDigits`. -/
def isDigitToken : Token → Bool
  | [c] => isDigitChar c
  | _ => false

/-- The loop of `packDigits`, with the accumulator `digitBuf` explicit. -/
def packDigitsAux (digitsPerBox : Nat) : List Token → List Char → List Token
  | [], buf => if buf.length > 0 then [buf] else []
  | t :: ts, buf =>
    if isDigitToken t then
      let buf2 := buf ++ t
      if buf2.length = digitsPerBox then
        buf2 :: packDigitsAux digitsPerBox ts []
      else
        packDigitsAux digitsPerBox ts buf2
    else
      (if buf.length > 0 then [buf] else []) ++ t :: packDigitsAux digitsPerBox ts []

/-- `packDigits(tokens, digitsPerBox = 2)` from the source. -/
def packDigits (tokens : List Token) (digitsPerBox : Nat := 2) : List Token :=
  packDigitsAux digitsPerBox tokens []

/-- The mutable state of one `layout` call: the growing cell array and the
current column. -/
structure LayoutState where
  cells : List Cell
  col : Nat
deriving DecidableEq, Repr

/-- `pushCell`: append one cell and advance the column,
`col = (col + 1) % width` (for the non-negative `col + 1`, the JS remainder
equals reduction modulo `|width|`). -/
def pushCell (w : Int) (s : LayoutState) (c : Cell) : LayoutState :=
  ⟨s.cells ++ [c], (s.col + 1) % w.natAbs⟩

/-- Push the same cell `n` times (the `for` loops of `padToLineEnd` and of
the indentation step). -/
def pushCellN (w : Int) (c : Cell) : LayoutState → Nat → LayoutState
  | s, 0 => s
  | s, n + 1 => pushCellN w c (pushCell w s c) n

/-- `padToLineEnd`: if not at column 0, push `width - col` unused padding
cells (none when that quantity is not positive, as with a negative width). -/
def padToLineEnd (w : Int) (s : LayoutState) : LayoutState :=
  if s.col = 0 then s
  else pushCellN w (makeCell [] false) s (w - s.col).toNat

/-- `pushUsedBlank`: one used, empty-content cell. -/
def pushUsedBlank (w : Int) (s : LayoutState) : LayoutState :=
  pushCell w s (makeCell [] true)

/-- `trySharePunctuationWithPreviousBox` from the source: on success returns
the state whose last cell has the punctuation appended to its content; the
checks (shareable, at line start, a previous cell exists, it is used) are
those of the source in order. -/
def trySharePunct (o : Config) (s : LayoutState) (punct : Token) :
    Option LayoutState :=
  if punct ∉ o.shareablePunct then none
  else if ¬ s.col = 0 then none
  else
    match s.cells.getLast? with
    | none => none
    | some prev =>
      if ¬ prev.used then none
      else some ⟨s.cells.dropLast ++ [⟨prev.char ++ punct, prev.used⟩], s.col⟩

/-- `placeToken(token, nextToken)` from the source. -/
def placeToken (o : Config) (w : Int) (s : LayoutState)
    (token : Token) (nextToken : Option Token) : LayoutState :=
  if token = spaceTok ∨ token = tabTok then
    if ¬ o.countSpaces then s
    else if s.col = 0 then s
    else pushUsedBlank w s
  else if token ∈ o.twoBoxTokens then
    let s1 := if (s.col : Int) = w - 1 then padToLineEnd w s else s
    pushCell w (pushCell w s1 (makeCell token true)) (makeCell ['·'] true)
  else
    match trySharePunct o s token with
    | some s1 =>
      if token ∈ o.requireBlankAfter ∧ nextToken ≠ none then pushUsedBlank w s1
      else s1
    | none =>
      let s1 := pushCell w s (makeCell token true)
      if token ∈ o.requireBlankAfter ∧ nextToken ≠ none then pushUsedBlank w s1
      else s1

/-- The token loop of `layout`: each token is placed with the following
token as `nextToken`; when the current token is in `requireBlankAfter` or in
`forbidTypedSpaceAfter` and the next token is a literal space or tab, that
whitespace token is skipped (`i += 1`). -/
def placeTokens (o : Config) (w : Int) : LayoutState → List Token → LayoutState
  | s, [] => s
  | s, [t] => placeToken o w s t none
  | s, t :: u :: rest =>
    let s1 := placeToken o w s t (some u)
    if (t ∈ o.requireBlankAfter ∨ t ∈ o.forbidTypedSpaceAfter) ∧
        (u = spaceTok ∨ u = tabTok) then
      placeTokens o w s1 rest
    else
      placeTokens o w s1 (u :: rest)

/-- One iteration of the paragraph loop of `layout`: indentation (or the
line change for an empty paragraph), tokenize, digit-pack, place the
tokens, and pad to line end unless this is the last paragraph. -/
def placeParagraph (o : Config) (w : Int) (isLast : Bool)
    (s : LayoutState) (para : List Char) : LayoutState :=
  let s1 :=
    if para.length > 0 ∧ o.indentBoxes > 0 then
      let sa := if ¬ s.col = 0 then padToLineEnd w s else s
      pushCellN w (makeCell [] true) sa o.indentBoxes
    else
      if ¬ s.col = 0 then padToLineEnd w s else s
  let tokens := packDigits (tokenizeParagraph para) o.digitsPerBox
  let s2 := placeTokens o w s1 tokens
  if ¬ isLast then padToLineEnd w s2 else s2

/-- The paragraph loop of `layout`. -/
def placeParas (o : Config) (w : Int) : LayoutState → List (List Char) → LayoutState
  | s, [] => s
  | s, [p] => placeParagraph o w true s p
  | s, p :: q :: rest => placeParas o w (placeParagraph o w false s p) (q :: rest)

/-- 1-based index of the last used cell; 0 when no cell is used. -/
def lastUsedIndex : List Cell → Nat
  | [] => 0
  | c :: rest =>
    let r := lastUsedIndex rest
    if r = 0 then (if c.used then 1 else 0) else r + 1

/-- `Math.ceil(a / w)` for integers, `w ≠ 0`. -/
def ceilDiv (a w : Int) : Int :=
  -((-a).fdiv w)

/-- The result object of `layout`. -/
structure LayoutResult where
  cells : List Cell
  usedCount : Nat
  sheetCount : Int
deriving DecidableEq, Repr

/-- `layout(text, opts)` from the source, on the merged configuration. -/
def layout (text : List Char) (o : Config) : LayoutResult :=
  let w : Int := coerceWidth o.width
  let paras := splitNewline (normalizeText text)
  let sFin := padToLineEnd w (placeParas o w ⟨[], 0⟩ paras)
  let usedCount := sFin.cells.countP (·.used)
  let lui := lastUsedIndex sFin.cells
  let sheetCount : Int := if lui = 0 then 0 else ceilDiv lui w * w
  ⟨sFin.cells, usedCount, sheetCount⟩

/-!
## The digit-grouping function described by the specification

`specDigitGroups` follows the words of the spec (§4.3): a run of digits is
cut into non-overlapping groups of exactly `digitsPerBox` digits each, left
to right, a run whose length is not a multiple leaving one final shorter
group.  It is compared with `packDigits` below.
-/

/-- Groups of `dpb` digits, left to right, final group possibly shorter
(the `Nat` fuel bounds the number of groups; it is never exhausted when it
starts at the run length). -/
def specGroupsAux (dpb : Nat) : Nat → List Char → List (List Char)
  | _, [] => []
  | 0, d :: ds => [d :: ds]
  | fuel + 1, d :: ds =>
    if (d :: ds).length ≤ dpb ∨ dpb = 0 then [d :: ds]
    else (d :: ds).take dpb :: specGroupsAux dpb fuel ((d :: ds).drop dpb)

/-- Groups of `dpb` digits, left to right, final group possibly shorter. -/
def specDigitGroups (dpb : Nat) (run : List Char) : List (List Char) :=
  specGroupsAux dpb run.length run

/-!
## State invariants

`Wf w s` says the column counter agrees with the number of emitted cells
modulo the width — the invariant the `layout` closures maintain from the
initial state onwards.
-/

/-- Column/length coherence of a layout state. -/
def Wf (w : Int) (s : LayoutState) : Prop :=
  s.col = s.cells.length % w.natAbs

theorem wf_init (w : Int) : Wf w ⟨[], 0⟩ := by
  simp [Wf]

theorem wf_pushCell (w : Int) (s : LayoutState) (c : Cell) (h : Wf w s) :
    Wf w (pushCell w s c) := by
  simp only [Wf, pushCell, List.length_append, List.length_cons,
    List.length_nil] at h ⊢
  rw [h, Nat.mod_add_mod]

theorem pushCellN_cells (w : Int) (c : Cell) :
    ∀ (n : Nat) (s : LayoutState),
      (pushCellN w c s n).cells = s.cells ++ List.replicate n c := by
  intro n
  induction n with
  | zero => intro s; simp [pushCellN]
  | succ n ih =>
    intro s
    simp only [pushCellN, ih, pushCell]
    simp [List.replicate_succ]

theorem wf_pushCellN (w : Int) (c : Cell) :
    ∀ (n : Nat) (s : LayoutState), Wf w s → Wf w (pushCellN w c s n) := by
  intro n
  induction n with
  | zero => intro s h; exact h
  | succ n ih => intro s h; exact ih _ (wf_pushCell w s c h)

theorem wf_pushUsedBlank (w : Int) (s : LayoutState) (h : Wf w s) :
    Wf w (pushUsedBlank w s) :=
  wf_pushCell w s _ h

theorem wf_padToLineEnd (w : Int) (s : LayoutState) (h : Wf w s) :
    Wf w (padToLineEnd w s) := by
  unfold padToLineEnd
  split
  · exact h
  · exact wf_pushCellN w _ _ s h

theorem padToLineEnd_cells (w : Int) (s : LayoutState) :
    ∃ k, (padToLineEnd w s).cells = s.cells ++ List.replicate k (makeCell [] false) := by
  unfold padToLineEnd
  split
  · exact ⟨0, by simp⟩
  · exact ⟨(w - s.col).toNat, pushCellN_cells w _ _ s⟩

/-- With a positive width, padding to the line end really reaches column 0. -/
theorem padToLineEnd_col (w : Int) (hw : 0 < w) (s : LayoutState) (h : Wf w s) :
    (padToLineEnd w s).col = 0 := by
  have hm : 0 < w.natAbs := by omega
  unfold padToLineEnd
  split
  · assumption
  · rename_i hc
    have hlt : s.col < w.natAbs := by
      rw [h]; exact Nat.mod_lt _ hm
    have hk : (w - (s.col : Int)).toNat = w.natAbs - s.col := by omega
    have hwf' := wf_pushCellN w (makeCell [] false) (w - s.col).toNat s h
    rw [Wf, pushCellN_cells] at hwf'
    rw [hwf']
    simp only [List.length_append, List.length_replicate, hk]
    rw [Nat.add_mod, ← h]
    have h1 : w.natAbs - s.col < w.natAbs := by omega
    rw [Nat.mod_eq_of_lt h1]
    have h3 : s.col + (w.natAbs - s.col) = w.natAbs := by omega
    rw [h3, Nat.mod_self]

theorem trySharePunct_some (o : Config) (s : LayoutState) (p : Token)
    (s' : LayoutState) (h : trySharePunct o s p = some s') :
    s'.cells.length = s.cells.length ∧ s'.col = s.col := by
  unfold trySharePunct at h
  split at h
  · exact absurd h (by simp)
  · split at h
    · exact absurd h (by simp)
    · split at h
      · exact absurd h (by simp)
      · split at h
        · exact absurd h (by simp)
        · rename_i prev hlast _
          have hne : s.cells ≠ [] := by
            intro hnil
            rw [hnil] at hlast
            simp at hlast
          have hpos : 0 < s.cells.length := List.length_pos.mpr hne
          obtain ⟨rfl⟩ : s' = ⟨s.cells.dropLast ++ [⟨prev.char ++ p, prev.used⟩], s.col⟩ := by
            exact (Option.some.injEq _ _).mp h.symm ▸ rfl
          constructor
          · simp only [List.length_append, List.length_cons, List.length_nil,
              List.length_dropLast]
            omega
          · rfl

theorem wf_trySharePunct (o : Config) (w : Int) (s : LayoutState) (p : Token)
    (s' : LayoutState) (h : trySharePunct o s p = some s') (hwf : Wf w s) :
    Wf w s' := by
  obtain ⟨hlen, hcol⟩ := trySharePunct_some o s p s' h
  rw [Wf, hlen, hcol]
  exact hwf

theorem wf_placeToken (o : Config) (w : Int) (s : LayoutState) (t : Token)
    (nx : Option Token) (h : Wf w s) : Wf w (placeToken o w s t nx) := by
  unfold placeToken
  split
  · split
    · exact h
    · split
      · exact h
      · exact wf_pushUsedBlank w s h
  · split
    · refine wf_pushCell w _ _ (wf_pushCell w _ _ ?_)
      split
      · exact wf_padToLineEnd w s h
      · exact h
    · split
      · rename_i s1 heq
        have h1 := wf_trySharePunct o w s t s1 heq h
        split
        · exact wf_pushUsedBlank w s1 h1
        · exact h1
      · have h1 := wf_pushCell w s (makeCell t true) h
        split
        · exact wf_pushUsedBlank w _ h1
        · exact h1

theorem wf_placeTokens (o : Config) (w : Int) :
    ∀ (ts : List Token) (s : LayoutState), Wf w s → Wf w (placeTokens o w s ts)
  | [], s, h => by rw [placeTokens]; exact h
  | [t], s, h => by rw [placeTokens]; exact wf_placeToken o w s t none h
  | t :: u :: rest, s, h => by
    rw [placeTokens]
    split
    · exact wf_placeTokens o w rest _ (wf_placeToken o w s t (some u) h)
    · exact wf_placeTokens o w (u :: rest) _ (wf_placeToken o w s t (some u) h)
termination_by ts => ts.length

theorem wf_placeParagraph (o : Config) (w : Int) (isLast : Bool)
    (s : LayoutState) (para : List Char) (h : Wf w s) :
    Wf w (placeParagraph o w isLast s para) := by
  have h1 : Wf w (if ¬ s.col = 0 then padToLineEnd w s else s) := by
    split
    · exact wf_padToLineEnd w s h
    · exact h
  have hinner : Wf w (placeTokens o w
      (if para.length > 0 ∧ o.indentBoxes > 0 then
        pushCellN w (makeCell [] true)
          (if ¬ s.col = 0 then padToLineEnd w s else s) o.indentBoxes
      else (if ¬ s.col = 0 then padToLineEnd w s else s))
      (packDigits (tokenizeParagraph para) o.digitsPerBox)) := by
    apply wf_placeTokens
    split
    · exact wf_pushCellN w _ _ _ h1
    · exact h1
  simp only [placeParagraph]
  split
  · exact wf_padToLineEnd w _ hinner
  · exact hinner

theorem wf_placeParas (o : Config) (w : Int) :
    ∀ (ps : List (List Char)) (s : LayoutState), Wf w s →
      Wf w (placeParas o w s ps)
  | [], _, h => h
  | [p], s, h => wf_placeParagraph o w true s p h
  | p :: q :: rest, s, h =>
    wf_placeParas o w (q :: rest) _ (wf_placeParagraph o w false s p h)

/-!
## Claims
-/

/-- C1.  The tokenizer does **not** recognize the ellipsis glyph wherever it
occurs: in the paragraph `"……a"` the leading run is split into two
single-character tokens, and only a run that forms the final two characters
of the paragraph (as in `"a……"`) is emitted as one ellipsis token — because
`para.slice(i, i + 6)`, a string of up to six characters, is compared with
the two-character literal `"……"`, which can only be equal when exactly two
characters remain. -/
theorem tokenize_ellipsis_only_at_paragraph_end :
    tokenizeParagraph ['…', '…', 'a'] = [['…'], ['…'], ['a']] ∧
    tokenizeParagraph ['a', '…', '…'] = [['a'], ['…', '…']] ∧
    tokenizeParagraph ['…', '…', '…', '…'] = [['…'], ['…'], ['…', '…']] := by
  decide

/-- C2.  An empty paragraph does **not** occupy a line of the output grid:
with the default configuration, `layout "a\n\nb"` and `layout "a\nb"`
return identical results — the blank paragraph emits no cells, because both
its branch of the paragraph loop and the following forced line change call
`padToLineEnd` at column 0, which does nothing. -/
theorem layout_empty_paragraph_no_blank_row :
    layout ['a', '\n', '\n', 'b'] DEFAULTS = layout ['a', '\n', 'b'] DEFAULTS := by
  decide

/-- C3, counterexample.  Punctuation sharing appends to the previous cell's
content without any length check: with width 2 the paragraph `"a,,"` puts
the indent blank and then `'a'` on the first row, and both commas are then
shared (at line start) into the `'a'` cell, whose content `"a,,"` has three
characters — more than the claimed two-character bound. -/
theorem share_overlong_cell_counterexample :
    (layout ['a', ',', ','] { DEFAULTS with width := .int 2 }).cells =
      [⟨[], true⟩, ⟨['a', ',', ','], true⟩] ∧
    ¬ (∀ c ∈ (layout ['a', ',', ','] { DEFAULTS with width := .int 2 }).cells,
        c.char.length ≤ 2) := by
  decide

/-- C7, counterexample.  `Number(o.width) || 20` replaces only NaN and 0:
a negative width is kept as-is, so `layout("a", {width: -5})` differs from
`layout("a", {width: 20})` (with width −5 no row is ever padded, and only
two cells are emitted instead of twenty). -/
theorem layout_negative_width_not_default :
    layout ['a'] { DEFAULTS with width := .int (-5) } ≠
      layout ['a'] { DEFAULTS with width := .int 20 } := by
  decide

/-- C9.  For every text and every configuration whose width is a positive
integer `n`, the emitted cell sequence's length is an exact multiple of
`n`: the column counter always equals the cell count modulo the width, and
the final `padToLineEnd` brings the column to 0. -/
theorem layout_length_multiple_of_width (text : List Char) (o : Config)
    (n : Nat) (hn : 0 < n) (hw : o.width = .int n) :
    (layout text o).cells.length % n = 0 := by
  have hcw : coerceWidth o.width = (n : Int) := by
    rw [hw]
    show (if (n : Int) = 0 then 20 else (n : Int)) = (n : Int)
    rw [if_neg (by omega)]
  simp only [layout]
  rw [hcw]
  have hwfP := wf_placeParas o (n : Int)
    (splitNewline (normalizeText text)) ⟨[], 0⟩ (wf_init (n : Int))
  have hwfF := wf_padToLineEnd (n : Int) _ hwfP
  have hcol := padToLineEnd_col (n : Int) (by exact_mod_cast hn) _ hwfP
  rw [Wf, Int.natAbs_ofNat] at hwfF
  rw [← hwfF, hcol]

/-- Witness for C9 at the default configuration and text `"a"`. -/
theorem layout_length_multiple_of_width_witness :
    (layout ['a'] DEFAULTS).cells.length % 20 = 0 :=
  layout_length_multiple_of_width ['a'] DEFAULTS 20 (by decide) rfl

/-!
Only the coerced width — never the raw `width` field — is consulted after
the first line of `layout`, so replacing the raw field leaves every other
part of the computation unchanged.
-/

theorem placeToken_width_irrel (o : Config) (x : JSNum) (w : Int)
    (s : LayoutState) (t : Token) (nx : Option Token) :
    placeToken { o with width := x } w s t nx = placeToken o w s t nx := rfl

theorem placeTokens_width_irrel (o : Config) (x : JSNum) (w : Int) :
    ∀ (ts : List Token) (s : LayoutState),
      placeTokens { o with width := x } w s ts = placeTokens o w s ts
  | [], _ => rfl
  | [_], _ => rfl
  | t :: u :: rest, s => by
    simp only [placeTokens]
    rw [placeToken_width_irrel]
    split
    · exact placeTokens_width_irrel o x w rest _
    · exact placeTokens_width_irrel o x w (u :: rest) _

theorem placeParagraph_width_irrel (o : Config) (x : JSNum) (w : Int)
    (isLast : Bool) (s : LayoutState) (para : List Char) :
    placeParagraph { o with width := x } w isLast s para =
      placeParagraph o w isLast s para := by
  simp only [placeParagraph]
  rw [placeTokens_width_irrel]

theorem placeParas_width_irrel (o : Config) (x : JSNum) (w : Int) :
    ∀ (ps : List (List Char)) (s : LayoutState),
      placeParas { o with width := x } w s ps = placeParas o w s ps
  | [], _ => rfl
  | [p], s => by
    show placeParagraph { o with width := x } w true s p = _
    rw [placeParagraph_width_irrel]
    rfl
  | p :: q :: rest, s => by
    show placeParas { o with width := x } w
        (placeParagraph { o with width := x } w false s p) (q :: rest) = _
    rw [placeParagraph_width_irrel,
      placeParas_width_irrel o x w (q :: rest)]
    rfl

/-- C7, amended.  A width of NaN (non-numeric) or 0 falls back to the
default 20 — `layout text o` equals the same call with width 20 — but a
negative width is **not** replaced (see the counterexample). -/
theorem layout_width_falsy_defaults (text : List Char) (o : Config)
    (h : o.width = .nan ∨ o.width = .int 0) :
    layout text o = layout text { o with width := .int 20 } := by
  have hcw : coerceWidth o.width = 20 := by
    rcases h with h | h <;> rw [h] <;> rfl
  have hcw' : coerceWidth ({ o with width := JSNum.int 20 } : Config).width = 20 := rfl
  simp only [layout]
  rw [hcw, hcw']
  rw [placeParas_width_irrel o (JSNum.int 20) 20]

/-- Witness for C7's amended theorem at a NaN width. -/
theorem layout_width_falsy_defaults_witness :
    layout ['a'] { DEFAULTS with width := .nan } =
      layout ['a'] { { DEFAULTS with width := .nan } with width := .int 20 } :=
  layout_width_falsy_defaults ['a'] { DEFAULTS with width := .nan } (Or.inl rfl)

/-!
Exact characterizations of `trySharePunctuationWithPreviousBox`.
-/

theorem trySharePunct_succeeds (o : Config) (s : LayoutState) (t : Token)
    (pre : List Cell) (prev : Cell) (hsh : t ∈ o.shareablePunct)
    (hcol : s.col = 0) (hc : s.cells = pre ++ [prev]) (hu : prev.used = true) :
    trySharePunct o s t = some ⟨pre ++ [⟨prev.char ++ t, true⟩], s.col⟩ := by
  unfold trySharePunct
  rw [if_neg (not_not_intro hsh), if_neg (not_not_intro hcol), hc,
    List.getLast?_concat]
  simp [hu, List.dropLast_concat]

theorem trySharePunct_refuses_unused (o : Config) (s : LayoutState) (t : Token)
    (pre : List Cell) (prev : Cell) (hc : s.cells = pre ++ [prev])
    (hu : prev.used = false) : trySharePunct o s t = none := by
  unfold trySharePunct
  split
  · rfl
  · split
    · rfl
    · rw [hc, List.getLast?_concat]
      simp [hu]

theorem trySharePunct_refuses_empty (o : Config) (s : LayoutState) (t : Token)
    (hc : s.cells = []) : trySharePunct o s t = none := by
  unfold trySharePunct
  split
  · rfl
  · split
    · rfl
    · rw [hc]
      rfl

theorem trySharePunct_refuses_of_not (o : Config) (s : LayoutState) (t : Token)
    (hn : ¬ (t ∈ o.shareablePunct ∧ s.col = 0)) : trySharePunct o s t = none := by
  unfold trySharePunct
  split
  · rfl
  · split
    · rfl
    · rename_i h1 h2
      exact absurd ⟨not_not.mp h1, not_not.mp h2⟩ hn

/-- `placeToken` on a non-whitespace, non-glyph token whose share attempt
succeeds. -/
theorem placeToken_of_share_some (o : Config) (w : Int) (s : LayoutState)
    (t : Token) (next : Option Token) (s1 : LayoutState)
    (hws : ¬ (t = spaceTok ∨ t = tabTok)) (h2 : t ∉ o.twoBoxTokens)
    (h : trySharePunct o s t = some s1) :
    placeToken o w s t next =
      (if t ∈ o.requireBlankAfter ∧ next ≠ none then pushUsedBlank w s1
       else s1) := by
  unfold placeToken
  rw [if_neg hws, if_neg h2, h]

/-- `placeToken` on a non-whitespace, non-glyph token whose share attempt
fails (the default branch). -/
theorem placeToken_of_share_none (o : Config) (w : Int) (s : LayoutState)
    (t : Token) (next : Option Token)
    (hws : ¬ (t = spaceTok ∨ t = tabTok)) (h2 : t ∉ o.twoBoxTokens)
    (h : trySharePunct o s t = none) :
    placeToken o w s t next =
      (if t ∈ o.requireBlankAfter ∧ next ≠ none then
        pushUsedBlank w (pushCell w s (makeCell t true))
       else pushCell w s (makeCell t true)) := by
  unfold placeToken
  rw [if_neg hws, if_neg h2, h]

/-- C4.  A shareable punctuation token placed exactly at line start is
appended into the immediately preceding cell when that cell exists and is
used — consuming no new cell (apart from the separate mandatory-blank rule)
— and occupies its own new cell when the preceding cell is unused padding
or absent. -/
theorem placeToken_share_at_line_start (o : Config) (w : Int) (s : LayoutState)
    (t : Token) (next : Option Token)
    (hsh : t ∈ o.shareablePunct) (hws : ¬ (t = spaceTok ∨ t = tabTok))
    (h2 : t ∉ o.twoBoxTokens) (hcol : s.col = 0) :
    (∀ pre prev, s.cells = pre ++ [prev] →
      (prev.used = true →
        (placeToken o w s t next).cells =
          pre ++ [⟨prev.char ++ t, true⟩] ++
            (if t ∈ o.requireBlankAfter ∧ next ≠ none then [⟨[], true⟩] else []))
      ∧ (prev.used = false →
        (placeToken o w s t next).cells =
          s.cells ++ [⟨t, true⟩] ++
            (if t ∈ o.requireBlankAfter ∧ next ≠ none then [⟨[], true⟩] else [])))
    ∧ (s.cells = [] →
      (placeToken o w s t next).cells =
        [⟨t, true⟩] ++
          (if t ∈ o.requireBlankAfter ∧ next ≠ none then [⟨[], true⟩] else [])) := by
  constructor
  · intro pre prev hc
    constructor
    · intro hu
      rw [placeToken_of_share_some o w s t next _ hws h2
        (trySharePunct_succeeds o s t pre prev hsh hcol hc hu)]
      split
      · simp [pushUsedBlank, pushCell, makeCell]
      · simp
    · intro hu
      rw [placeToken_of_share_none o w s t next hws h2
        (trySharePunct_refuses_unused o s t pre prev hc hu)]
      split
      · simp [pushUsedBlank, pushCell, makeCell]
      · simp [pushCell, makeCell]
  · intro hc
    rw [placeToken_of_share_none o w s t next hws h2
      (trySharePunct_refuses_empty o s t hc)]
    split
    · simp [pushUsedBlank, pushCell, makeCell, hc]
    · simp [pushCell, makeCell, hc]

/-- Witness for C4: a comma at line start after a used cell `'a'` is merged
into it (no new cell), and after unused padding it gets its own cell. -/
theorem placeToken_share_at_line_start_witness :
    (placeToken DEFAULTS 2 ⟨[⟨['a'], true⟩], 0⟩ [','] none).cells =
      [⟨['a', ','], true⟩] ∧
    (placeToken DEFAULTS 2 ⟨[⟨[], false⟩], 0⟩ [','] none).cells =
      [⟨[], false⟩, ⟨[','], true⟩] := by
  have h1 := placeToken_share_at_line_start DEFAULTS 2 ⟨[⟨['a'], true⟩], 0⟩
    [','] none (by decide) (by decide) (by decide) rfl
  have h2 := placeToken_share_at_line_start DEFAULTS 2 ⟨[⟨[], false⟩], 0⟩
    [','] none (by decide) (by decide) (by decide) rfl
  constructor
  · simpa using (h1.1 [] ⟨['a'], true⟩ rfl).1 rfl
  · simpa using (h2.1 [] ⟨[], false⟩ rfl).2 rfl

/-- C5.  Placing a mandatory-trailing-blank token (`?` or `!`): with a
following token the result is exactly the paragraph-final placement plus
one used blank; the token loop skips a literal whitespace token that
immediately follows such punctuation; and at paragraph end (no next token,
no sharing applicable) the punctuation occupies exactly its own cell with
no trailing blank. -/
theorem placeToken_require_blank (o : Config) (w : Int) (s : LayoutState)
    (q : Token) (next : Option Token) (rest : List Token)
    (hq : q ∈ o.requireBlankAfter) (hws : ¬ (q = spaceTok ∨ q = tabTok))
    (h2 : q ∉ o.twoBoxTokens) :
    (next ≠ none →
      placeToken o w s q next = pushUsedBlank w (placeToken o w s q none)) ∧
    (∀ u, (u = spaceTok ∨ u = tabTok) →
      placeTokens o w s (q :: u :: rest) =
        placeTokens o w (placeToken o w s q (some u)) rest) ∧
    (¬ (q ∈ o.shareablePunct ∧ s.col = 0) →
      placeToken o w s q none = pushCell w s (makeCell q true)) := by
  refine ⟨?_, ?_, ?_⟩
  · intro hnext
    cases h : trySharePunct o s q with
    | some s1 =>
      rw [placeToken_of_share_some o w s q next s1 hws h2 h,
        placeToken_of_share_some o w s q none s1 hws h2 h,
        if_pos ⟨hq, hnext⟩, if_neg (by simp)]
    | none =>
      rw [placeToken_of_share_none o w s q next hws h2 h,
        placeToken_of_share_none o w s q none hws h2 h,
        if_pos ⟨hq, hnext⟩, if_neg (by simp)]
  · intro u hu
    rw [placeTokens]
    rw [if_pos ⟨Or.inl hq, hu⟩]
  · intro hn
    rw [placeToken_of_share_none o w s q none hws h2
      (trySharePunct_refuses_of_not o s q hn)]
    rw [if_neg (by simp)]

/-- Witness for C5 with `'!'` followed by a space and then `'b'`. -/
theorem placeToken_require_blank_witness :
    (placeToken DEFAULTS 5 ⟨[⟨['a'], true⟩], 1⟩ ['!'] (some spaceTok) =
      pushUsedBlank 5 (placeToken DEFAULTS 5 ⟨[⟨['a'], true⟩], 1⟩ ['!'] none)) ∧
    (placeTokens DEFAULTS 5 ⟨[⟨['a'], true⟩], 1⟩ [['!'], spaceTok, ['b']] =
      placeTokens DEFAULTS 5
        (placeToken DEFAULTS 5 ⟨[⟨['a'], true⟩], 1⟩ ['!'] (some spaceTok))
        [['b']]) ∧
    (placeToken DEFAULTS 5 ⟨[⟨['a'], true⟩], 1⟩ ['!'] none =
      pushCell 5 ⟨[⟨['a'], true⟩], 1⟩ (makeCell ['!'] true)) := by
  have h := placeToken_require_blank DEFAULTS 5 ⟨[⟨['a'], true⟩], 1⟩ ['!']
    (some spaceTok) [['b']] (by decide) (by decide) (by decide)
  exact ⟨h.1 (by simp), h.2.1 spaceTok (Or.inl rfl), h.2.2 (by decide)⟩

/-- Successor stays in the same row when the column of `n` is not the last
one. -/
theorem div_succ_eq_of_mod_succ_lt (n m : Nat) (h : n % m + 1 < m) :
    (n + 1) / m = n / m := by
  have hm : 0 < m := by omega
  obtain ⟨q, r, hr, rfl⟩ : ∃ q r, r < m ∧ n = m * q + r :=
    ⟨n / m, n % m, Nat.mod_lt _ hm, (Nat.div_add_mod n m).symm⟩
  have hrm : (m * q + r) % m = r := by
    rw [Nat.mul_add_mod, Nat.mod_eq_of_lt hr]
  rw [hrm] at h
  rw [Nat.add_assoc, Nat.mul_add_div hm, Nat.mul_add_div hm,
    Nat.div_eq_of_lt hr, Nat.div_eq_of_lt (by omega)]

/-- When not at column 0, line-end padding appends exactly `width − col`
unused empty cells. -/
theorem padToLineEnd_cells_of_ne (w : Int) (s : LayoutState)
    (h : ¬ s.col = 0) :
    (padToLineEnd w s).cells =
      s.cells ++ List.replicate (w - s.col).toNat (makeCell [] false) := by
  unfold padToLineEnd
  rw [if_neg h]
  exact pushCellN_cells w _ _ s

/-- C6.  For width at least 2, a two-box glyph is emitted as its own used
cell directly followed by the continuation-marker cell; when its first cell
would fall in the last column, exactly one row's worth of remaining unused
padding is emitted first, so that the glyph cell's column stays below the
last one — its row index and the marker cell's row index coincide, and the
glyph is never split across a row boundary. -/
theorem placeToken_two_box_same_row (o : Config) (w : Int) (s : LayoutState)
    (t : Token) (next : Option Token) (ht : t ∈ o.twoBoxTokens)
    (hws : ¬ (t = spaceTok ∨ t = tabTok)) (hw : 2 ≤ w)
    (hwf : s.col = s.cells.length % w.toNat) :
    placeToken o w s t next =
      pushCell w
        (pushCell w (if (s.col : Int) = w - 1 then padToLineEnd w s else s)
          (makeCell t true))
        (makeCell ['·'] true) ∧
    (if (s.col : Int) = w - 1 then padToLineEnd w s else s).cells =
      s.cells ++
        (if (s.col : Int) = w - 1 then
          List.replicate (w - s.col).toNat (makeCell [] false)
         else []) ∧
    (if (s.col : Int) = w - 1 then padToLineEnd w s else s).cells.length %
        w.toNat + 1 < w.toNat ∧
    (if (s.col : Int) = w - 1 then padToLineEnd w s else s).cells.length /
        w.toNat =
      ((if (s.col : Int) = w - 1 then padToLineEnd w s else s).cells.length
        + 1) / w.toNat := by
  have hna : w.natAbs = w.toNat := by omega
  have hm : 0 < w.toNat := by omega
  have hwf' : Wf w s := by rw [Wf, hna]; exact hwf
  have hpt : placeToken o w s t next =
      pushCell w
        (pushCell w (if (s.col : Int) = w - 1 then padToLineEnd w s else s)
          (makeCell t true))
        (makeCell ['·'] true) := by
    unfold placeToken
    rw [if_neg hws, if_pos ht]
  by_cases hlast : (s.col : Int) = w - 1
  · rw [if_pos hlast] at hpt ⊢
    have hc0 : ¬ s.col = 0 := by omega
    have h0 : (padToLineEnd w s).col = 0 := padToLineEnd_col w (by omega) s hwf'
    have hwfp := wf_padToLineEnd w s hwf'
    rw [Wf, hna, h0] at hwfp
    refine ⟨hpt, ?_, by omega, ?_⟩
    · rw [if_pos hlast]
      exact padToLineEnd_cells_of_ne w s hc0
    · rw [div_succ_eq_of_mod_succ_lt _ _ (by omega)]
  · rw [if_neg hlast] at hpt ⊢
    have hcl : s.col < w.toNat := by rw [hwf]; exact Nat.mod_lt _ hm
    refine ⟨hpt, by simp [hlast], by omega, ?_⟩
    rw [div_succ_eq_of_mod_succ_lt _ _ (by omega)]

/-- Witness for C6: width 5, four cells already emitted (column 4), the
ellipsis glyph pads one unused cell and lands at columns 0 and 1 of the
next row. -/
theorem placeToken_two_box_same_row_witness :
    placeToken DEFAULTS 5
        ⟨[⟨[], true⟩, ⟨['a'], true⟩, ⟨['b'], true⟩, ⟨['c'], true⟩], 4⟩
        ['…', '…'] none =
      pushCell 5
        (pushCell 5
          (if ((4 : Nat) : Int) = 5 - 1 then
            padToLineEnd 5
              ⟨[⟨[], true⟩, ⟨['a'], true⟩, ⟨['b'], true⟩, ⟨['c'], true⟩], 4⟩
           else ⟨[⟨[], true⟩, ⟨['a'], true⟩, ⟨['b'], true⟩, ⟨['c'], true⟩], 4⟩)
          (makeCell ['…', '…'] true))
        (makeCell ['·'] true) ∧
    (if ((4 : Nat) : Int) = 5 - 1 then
      padToLineEnd 5
        ⟨[⟨[], true⟩, ⟨['a'], true⟩, ⟨['b'], true⟩, ⟨['c'], true⟩], 4⟩
     else ⟨[⟨[], true⟩, ⟨['a'], true⟩, ⟨['b'], true⟩, ⟨['c'], true⟩], 4⟩).cells =
      [⟨[], true⟩, ⟨['a'], true⟩, ⟨['b'], true⟩, ⟨['c'], true⟩] ++
        (if ((4 : Nat) : Int) = 5 - 1 then
          List.replicate ((5 : Int) - (4 : Nat)).toNat (makeCell [] false)
         else []) ∧
    (if ((4 : Nat) : Int) = 5 - 1 then
      padToLineEnd 5
        ⟨[⟨[], true⟩, ⟨['a'], true⟩, ⟨['b'], true⟩, ⟨['c'], true⟩], 4⟩
     else ⟨[⟨[], true⟩, ⟨['a'], true⟩, ⟨['b'], true⟩, ⟨['c'], true⟩],
        4⟩).cells.length % (5 : Int).toNat + 1 < (5 : Int).toNat ∧
    (if ((4 : Nat) : Int) = 5 - 1 then
      padToLineEnd 5
        ⟨[⟨[], true⟩, ⟨['a'], true⟩, ⟨['b'], true⟩, ⟨['c'], true⟩], 4⟩
     else ⟨[⟨[], true⟩, ⟨['a'], true⟩, ⟨['b'], true⟩, ⟨['c'], true⟩],
        4⟩).cells.length / (5 : Int).toNat =
      ((if ((4 : Nat) : Int) = 5 - 1 then
        padToLineEnd 5
          ⟨[⟨[], true⟩, ⟨['a'], true⟩, ⟨['b'], true⟩, ⟨['c'], true⟩], 4⟩
       else ⟨[⟨[], true⟩, ⟨['a'], true⟩, ⟨['b'], true⟩, ⟨['c'], true⟩],
          4⟩).cells.length + 1) / (5 : Int).toNat :=
  placeToken_two_box_same_row DEFAULTS 5
    ⟨[⟨[], true⟩, ⟨['a'], true⟩, ⟨['b'], true⟩, ⟨['c'], true⟩], 4⟩
    ['…', '…'] none (by decide) (by decide) (by decide) (by decide)

/-- A one-character paragraph is tokenized into one single-character token. -/
theorem tokenizeParagraph_single (c : Char) : tokenizeParagraph [c] = [[c]] := by
  show (if [c].take 6 = ellTok then ellTok :: tokenizeAux 0 ([c].drop 6)
        else [c] :: tokenizeAux 0 []) = [[c]]
  rw [if_neg (by simp [ellTok])]
  rfl

/-- A single non-digit token passes through the digit packer unchanged. -/
theorem packDigits_single_nondigit (c : Char) (dpb : Nat)
    (hdig : isDigitChar c = false) : packDigits [[c]] dpb = [[c]] := by
  simp [packDigits, packDigitsAux, isDigitToken, hdig]

/-- With no indentation and the cursor already at line start, a paragraph
is just its token placement. -/
theorem placeParagraph_no_indent_at_col0 (o : Config) (w : Int)
    (s : LayoutState) (para : List Char) (hind : o.indentBoxes = 0)
    (hcol : s.col = 0) :
    placeParagraph o w true s para =
      placeTokens o w s (packDigits (tokenizeParagraph para) o.digitsPerBox) := by
  simp only [placeParagraph]
  rw [if_neg (show ¬ ¬ True by simp),
    if_neg (show ¬ (para.length > 0 ∧ o.indentBoxes > 0) by simp [hind]),
    if_neg (not_not_intro hcol)]

/-- C10.  With indent width 0, when the first paragraph ends with a used
cell exactly at the last column (so the cursor is back at column 0) and the
next paragraph is a shareable punctuation character, the punctuation is
appended into the previous paragraph's final cell across the paragraph
boundary and consumes no cell of its own. -/
theorem placeParas_cross_paragraph_share (o : Config) (w : Int)
    (s0 s : LayoutState) (p1 : List Char) (c : Char)
    (pre : List Cell) (prev : Cell)
    (hind : o.indentBoxes = 0)
    (hp1 : placeParagraph o w false s0 p1 = s)
    (hcells : s.cells = pre ++ [prev]) (hused : prev.used = true)
    (hcol : s.col = 0)
    (hsh : [c] ∈ o.shareablePunct) (hws : ¬ (c = ' ' ∨ c = '\t'))
    (h2 : [c] ∉ o.twoBoxTokens) (hdig : isDigitChar c = false) :
    placeParas o w s0 [p1, [c]] =
      ⟨pre ++ [⟨prev.char ++ [c], true⟩], 0⟩ := by
  rw [placeParas, hp1, placeParas,
    placeParagraph_no_indent_at_col0 o w s [c] hind hcol,
    tokenizeParagraph_single, packDigits_single_nondigit c o.digitsPerBox hdig,
    placeTokens,
    placeToken_of_share_some o w s [c] none _
      (by simpa [spaceTok, tabTok] using hws) h2
      (trySharePunct_succeeds o s [c] pre prev hsh hcol hcells hused),
    if_neg (by simp), hcol]

/-- Witness for C10: width 2, indent 0, paragraph `"ab"` then paragraph
`","` — the comma merges into the `'b'` cell of the previous paragraph. -/
theorem placeParas_cross_paragraph_share_witness :
    placeParas { DEFAULTS with width := .int 2, indentBoxes := 0 } 2
        ⟨[], 0⟩ [['a', 'b'], [',']] =
      ⟨[⟨['a'], true⟩, ⟨['b', ','], true⟩], 0⟩ :=
  placeParas_cross_paragraph_share
    { DEFAULTS with width := .int 2, indentBoxes := 0 } 2
    ⟨[], 0⟩ ⟨[⟨['a'], true⟩, ⟨['b'], true⟩], 0⟩ ['a', 'b'] ','
    [⟨['a'], true⟩] ⟨['b'], true⟩ rfl (by decide) rfl rfl rfl
    (by decide) (by decide) (by decide) (by decide)

/-!
## Content-length invariant (C3)

Without punctuation sharing every emitted cell holds at most two
characters, and a two-character content is a digit pair or the ellipsis
glyph.  `OkContent` is that bound for one content string.
-/

/-- Content of at most two characters, two only for the ellipsis glyph or a
digit pair. -/
def OkContent (l : List Char) : Prop :=
  l.length ≤ 2 ∧ (l.length = 2 → l = ellTok ∨ l.all isDigitChar = true)

theorem okContent_nil : OkContent [] := by
  constructor
  · simp
  · intro h
    simp at h

theorem okContent_single (c : Char) : OkContent [c] := by
  constructor
  · simp
  · intro h
    simp at h

theorem okContent_ellTok : OkContent ellTok := by
  exact ⟨by simp [ellTok], fun _ => Or.inl rfl⟩

theorem okContent_short (l : List Char) (h : l.length ≤ 1) : OkContent l :=
  ⟨by omega, by intro h2; omega⟩

theorem tokenizeAux_ok :
    ∀ (fuel : Nat) (l : List Char), ∀ t ∈ tokenizeAux fuel l, OkContent t := by
  intro fuel
  induction fuel with
  | zero =>
    intro l t ht
    cases l <;> simp [tokenizeAux] at ht
  | succ f ih =>
    intro l t ht
    cases l with
    | nil => simp [tokenizeAux] at ht
    | cons c cs =>
      rw [tokenizeAux] at ht
      split at ht
      · rcases List.mem_cons.mp ht with rfl | ht'
        · exact okContent_ellTok
        · exact ih _ t ht'
      · rcases List.mem_cons.mp ht with rfl | ht'
        · exact okContent_single c
        · exact ih _ t ht'

theorem isDigitToken_true {t : Token} (h : isDigitToken t = true) :
    ∃ c, t = [c] ∧ isDigitChar c = true := by
  cases t with
  | nil => simp [isDigitToken] at h
  | cons c cs =>
    cases cs with
    | nil => exact ⟨c, rfl, by simpa [isDigitToken] using h⟩
    | cons d ds => simp [isDigitToken] at h

theorem packAux_ok :
    ∀ (ts : List Token) (buf : List Char), (∀ t ∈ ts, OkContent t) →
      buf.length ≤ 1 → buf.all isDigitChar = true →
      ∀ u ∈ packDigitsAux 2 ts buf, OkContent u := by
  intro ts
  induction ts with
  | nil =>
    intro buf _ hb1 _ u hu
    rw [packDigitsAux] at hu
    split at hu
    · rw [List.mem_singleton] at hu
      exact hu ▸ okContent_short buf hb1
    · simp at hu
  | cons t ts ih =>
    intro buf hts hb1 hb2 u hu
    rw [packDigitsAux] at hu
    split at hu
    · rename_i hdt
      obtain ⟨c, rfl, hc⟩ := isDigitToken_true hdt
      simp only [] at hu
      split at hu
      · rename_i hbl
        rcases List.mem_cons.mp hu with rfl | hu'
        · refine ⟨by omega, fun _ => Or.inr ?_⟩
          rw [List.all_append]
          simp [hb2, hc]
        · exact ih [] (fun v hv => hts v (List.mem_cons_of_mem _ hv))
            (by simp) (by simp) u hu'
      · rename_i hbl
        refine ih (buf ++ [c]) (fun v hv => hts v (List.mem_cons_of_mem _ hv))
          ?_ ?_ u hu
        · simp only [List.length_append, List.length_cons, List.length_nil] at hbl ⊢
          omega
        · rw [List.all_append]
          simp [hb2, hc]
    · rcases List.mem_append.mp hu with hu' | hu'
      · split at hu'
        · rw [List.mem_singleton] at hu'
          exact hu' ▸ okContent_short buf hb1
        · simp at hu'
      · rcases List.mem_cons.mp hu' with rfl | hu''
        · exact hts u (List.mem_cons_self _ _)
        · exact ih [] (fun v hv => hts v (List.mem_cons_of_mem _ hv))
            (by simp) (by simp) u hu''

/-- All cells of a state satisfy the content bound. -/
def OkCells (s : LayoutState) : Prop :=
  ∀ cl ∈ s.cells, OkContent cl.char

theorem ok_pushCell (w : Int) (s : LayoutState) (c : Cell)
    (hc : OkContent c.char) (hs : OkCells s) : OkCells (pushCell w s c) := by
  intro cl hcl
  rcases List.mem_append.mp hcl with h | h
  · exact hs cl h
  · rw [List.mem_singleton] at h
    exact h ▸ hc

theorem ok_pushCellN (w : Int) (c : Cell) (hc : OkContent c.char) :
    ∀ (n : Nat) (s : LayoutState), OkCells s → OkCells (pushCellN w c s n) := by
  intro n
  induction n with
  | zero => intro s h; exact h
  | succ n ih => intro s h; exact ih _ (ok_pushCell w s c hc h)

theorem ok_padToLineEnd (w : Int) (s : LayoutState) (hs : OkCells s) :
    OkCells (padToLineEnd w s) := by
  unfold padToLineEnd
  split
  · exact hs
  · exact ok_pushCellN w _ okContent_nil _ s hs

theorem trySharePunct_none_of_no_shareables (o : Config) (s : LayoutState)
    (t : Token) (hsp : o.shareablePunct = []) : trySharePunct o s t = none := by
  unfold trySharePunct
  rw [hsp]
  rw [if_pos (List.not_mem_nil t)]

theorem ok_placeToken (o : Config) (w : Int) (s : LayoutState) (t : Token)
    (nx : Option Token) (hsp : o.shareablePunct = []) (htok : OkContent t)
    (hs : OkCells s) : OkCells (placeToken o w s t nx) := by
  rw [placeToken]
  split
  · split
    · exact hs
    · split
      · exact hs
      · exact ok_pushCell w s _ okContent_nil hs
  · split
    · refine ok_pushCell w _ _ (okContent_single '·')
        (ok_pushCell w _ _ htok ?_)
      split
      · exact ok_padToLineEnd w s hs
      · exact hs
    · rw [trySharePunct_none_of_no_shareables o s t hsp]
      show OkCells (if t ∈ o.requireBlankAfter ∧ nx ≠ none then
        pushUsedBlank w (pushCell w s (makeCell t true))
        else pushCell w s (makeCell t true))
      split
      · exact ok_pushCell w _ _ okContent_nil (ok_pushCell w s _ htok hs)
      · exact ok_pushCell w s _ htok hs

theorem ok_placeTokens (o : Config) (w : Int) (hsp : o.shareablePunct = []) :
    ∀ (ts : List Token) (s : LayoutState), (∀ t ∈ ts, OkContent t) →
      OkCells s → OkCells (placeTokens o w s ts)
  | [], s, _, hs => by rw [placeTokens]; exact hs
  | [t], s, hts, hs => by
    rw [placeTokens]
    exact ok_placeToken o w s t none hsp (hts t (List.mem_cons_self _ _)) hs
  | t :: u :: rest, s, hts, hs => by
    rw [placeTokens]
    have hs1 := ok_placeToken o w s t (some u) hsp (hts t (List.mem_cons_self _ _)) hs
    split
    · exact ok_placeTokens o w hsp rest _
        (fun v hv => hts v (by simp [hv])) hs1
    · exact ok_placeTokens o w hsp (u :: rest) _
        (fun v hv => hts v (by simp at hv ⊢; tauto)) hs1

theorem ok_placeParagraph (o : Config) (w : Int) (isLast : Bool)
    (s : LayoutState) (para : List Char) (hsp : o.shareablePunct = [])
    (hdpb : o.digitsPerBox = 2) (hs : OkCells s) :
    OkCells (placeParagraph o w isLast s para) := by
  have h1 : OkCells (if ¬ s.col = 0 then padToLineEnd w s else s) := by
    split
    · exact ok_padToLineEnd w s hs
    · exact hs
  have htoks : ∀ t ∈ packDigits (tokenizeParagraph para) o.digitsPerBox,
      OkContent t := by
    rw [hdpb]
    exact packAux_ok (tokenizeParagraph para) []
      (fun t ht => tokenizeAux_ok para.length para t ht) (by simp) (by simp)
  have hinner : OkCells (placeTokens o w
      (if para.length > 0 ∧ o.indentBoxes > 0 then
        pushCellN w (makeCell [] true)
          (if ¬ s.col = 0 then padToLineEnd w s else s) o.indentBoxes
      else (if ¬ s.col = 0 then padToLineEnd w s else s))
      (packDigits (tokenizeParagraph para) o.digitsPerBox)) := by
    apply ok_placeTokens o w hsp _ _ htoks
    split
    · exact ok_pushCellN w _ okContent_nil _ _ h1
    · exact h1
  simp only [placeParagraph]
  split
  · exact ok_padToLineEnd w _ hinner
  · exact hinner

theorem ok_placeParas (o : Config) (w : Int) (hsp : o.shareablePunct = [])
    (hdpb : o.digitsPerBox = 2) :
    ∀ (ps : List (List Char)) (s : LayoutState), OkCells s →
      OkCells (placeParas o w s ps)
  | [], _, hs => hs
  | [p], s, hs => ok_placeParagraph o w true s p hsp hdpb hs
  | p :: q :: rest, s, hs =>
    ok_placeParas o w hsp hdpb (q :: rest) _
      (ok_placeParagraph o w false s p hsp hdpb hs)

/-- C3, amended.  With the sharing rule out of play (empty shareable set)
and two digits per cell, every emitted cell's content has zero, one or two
characters, and two only for the ellipsis glyph or a digit pair; with
sharing enabled the bound fails (see the counterexample), since sharing
appends to an already-full cell without any length check. -/
theorem cell_content_le_two_without_sharing (text : List Char) (o : Config)
    (hsp : o.shareablePunct = []) (hdpb : o.digitsPerBox = 2) :
    ∀ c ∈ (layout text o).cells,
      c.char.length ≤ 2 ∧
        (c.char.length = 2 → c.char = ellTok ∨ c.char.all isDigitChar = true) := by
  intro c hc
  have hok : OkCells (padToLineEnd (coerceWidth o.width)
      (placeParas o (coerceWidth o.width) ⟨[], 0⟩
        (splitNewline (normalizeText text)))) :=
    ok_padToLineEnd _ _
      (ok_placeParas o _ hsp hdpb _ _ (by intro cl hcl; simp at hcl))
  exact hok c hc

/-- Witness for C3's amended theorem: the digit-pair cell `"20"` of the
layout of `"2026……"` without sharing satisfies the bound. -/
theorem cell_content_le_two_without_sharing_witness :
    (Cell.mk ['2', '0'] true).char.length ≤ 2 ∧
      ((Cell.mk ['2', '0'] true).char.length = 2 →
        (Cell.mk ['2', '0'] true).char = ellTok ∨
          (Cell.mk ['2', '0'] true).char.all isDigitChar = true) :=
  cell_content_le_two_without_sharing ['2', '0', '2', '6', '…', '…']
    { DEFAULTS with shareablePunct := [] } rfl rfl
    ⟨['2', '0'], true⟩ (by decide)

/-!
## Digit packing (C8)
-/

theorem specGroupsAux_fuel_irrel (dpb : Nat) :
    ∀ (f1 : Nat) (l : List Char) (f2 : Nat), l.length ≤ f1 → l.length ≤ f2 →
      specGroupsAux dpb f1 l = specGroupsAux dpb f2 l := by
  intro f1
  induction f1 with
  | zero =>
    intro l f2 h1 _
    cases l with
    | nil => cases f2 <;> rfl
    | cons d ds => simp at h1
  | succ f ih =>
    intro l f2 h1 h2
    cases l with
    | nil => cases f2 <;> rfl
    | cons d ds =>
      cases f2 with
      | zero => simp at h2
      | succ f2' =>
        rw [specGroupsAux, specGroupsAux]
        split
        · rfl
        · rename_i hcond
          push_neg at hcond
          congr 1
          apply ih
          · simp only [List.length_drop, List.length_cons] at h1 ⊢
            omega
          · simp only [List.length_drop, List.length_cons] at h2 ⊢
            omega

theorem specGroups_small (dpb : Nat) (l : List Char) (h : l.length ≤ dpb) :
    specDigitGroups dpb l = if l = [] then [] else [l] := by
  cases l with
  | nil => rfl
  | cons d ds =>
    show specGroupsAux dpb (ds.length + 1) (d :: ds) = _
    rw [specGroupsAux, if_pos (Or.inl h)]
    simp

theorem specGroups_chunk (dpb : Nat) (hd : 1 ≤ dpb) (xs rest : List Char)
    (hlen : xs.length = dpb) :
    specDigitGroups dpb (xs ++ rest) = xs :: specDigitGroups dpb rest := by
  cases xs with
  | nil =>
    simp only [List.length_nil] at hlen
    omega
  | cons x xs' =>
    cases rest with
    | nil =>
      rw [List.append_nil, specGroups_small dpb (x :: xs') (le_of_eq hlen),
        if_neg (by simp)]
      rfl
    | cons r rs =>
      show specGroupsAux dpb ((xs' ++ r :: rs).length + 1)
          (x :: (xs' ++ r :: rs)) = _
      rw [specGroupsAux]
      rw [if_neg (by
        simp only [List.length_cons, List.length_append] at hlen ⊢
        omega)]
      have htake : (x :: (xs' ++ r :: rs)).take dpb = x :: xs' := by
        rw [← hlen]
        exact List.take_left (x :: xs') (r :: rs)
      have hdrop : (x :: (xs' ++ r :: rs)).drop dpb = r :: rs := by
        rw [← hlen]
        exact List.drop_left (x :: xs') (r :: rs)
      rw [htake, hdrop]
      congr 1
      apply specGroupsAux_fuel_irrel
      · simp only [List.length_cons, List.length_append] at hlen ⊢
        omega
      · exact le_refl _

theorem packAux_digit_run (dpb : Nat) (hd : 1 ≤ dpb) :
    ∀ (ds ts : List Token) (buf : List Char),
      (∀ t ∈ ds, isDigitToken t = true) →
      (ts = [] ∨ ∃ t' ts', ts = t' :: ts' ∧ isDigitToken t' = false) →
      buf.length < dpb →
      packDigitsAux dpb (ds ++ ts) buf =
        specDigitGroups dpb (buf ++ ds.flatten) ++ packDigitsAux dpb ts [] := by
  intro ds
  induction ds with
  | nil =>
    intro ts buf _ hts hb
    rw [List.nil_append, List.flatten_nil, List.append_nil,
      specGroups_small dpb buf (by omega)]
    rcases hts with rfl | ⟨t', ts', rfl, ht'⟩
    · rw [packDigitsAux, packDigitsAux]
      by_cases hbuf : buf = [] <;> simp [hbuf, List.length_pos]
    · have hexp : ∀ b : List Char, packDigitsAux dpb (t' :: ts') b =
          (if b.length > 0 then [b] else []) ++
            t' :: packDigitsAux dpb ts' [] := by
        intro b
        rw [packDigitsAux, if_neg (by simp [ht'])]
      rw [hexp buf, hexp []]
      by_cases hbuf : buf = [] <;> simp [hbuf, List.length_pos]
  | cons d ds ih =>
    intro ts buf hds hts hb
    have hd0 : isDigitToken d = true := hds d (List.mem_cons_self _ _)
    obtain ⟨c, rfl, hc⟩ := isDigitToken_true hd0
    rw [List.cons_append, packDigitsAux, if_pos hd0]
    simp only []
    by_cases hbl : (buf ++ [c]).length = dpb
    · rw [if_pos hbl,
        ih ts [] (fun t ht => hds t (List.mem_cons_of_mem _ ht)) hts (by simpa using hd),
        List.nil_append, List.flatten_cons, ← List.append_assoc,
        specGroups_chunk dpb hd (buf ++ [c]) ds.flatten hbl]
      rfl
    · rw [if_neg hbl,
        ih ts (buf ++ [c]) (fun t ht => hds t (List.mem_cons_of_mem _ ht)) hts
          (by
            simp only [List.length_append, List.length_cons, List.length_nil]
              at hbl ⊢
            omega),
        List.flatten_cons, ← List.append_assoc]

/-- C8.  The digit packer leaves non-digit tokens unchanged (each one
terminates the current run), replaces a maximal run of single-digit tokens
by the groups of exactly `dpb` digits taken left to right with one final
shorter group when the run length is not a multiple, and packs the
paragraph `"2026"` into exactly `["20", "26"]`. -/
theorem packDigits_maximal_runs (dpb : Nat) (hd : 1 ≤ dpb) :
    (∀ t ts, isDigitToken t = false →
      packDigits (t :: ts) dpb = t :: packDigits ts dpb) ∧
    (∀ run ts, (∀ t ∈ run, isDigitToken t = true) →
      (ts = [] ∨ ∃ t' ts', ts = t' :: ts' ∧ isDigitToken t' = false) →
      packDigits (run ++ ts) dpb =
        specDigitGroups dpb run.flatten ++ packDigits ts dpb) ∧
    packDigits (tokenizeParagraph ['2', '0', '2', '6']) 2 =
      [['2', '0'], ['2', '6']] := by
  refine ⟨?_, ?_, by decide⟩
  · intro t ts ht
    rw [packDigits, packDigits, packDigitsAux, if_neg (by simp [ht])]
    simp
  · intro run ts hrun hts
    rw [packDigits, packDigits,
      packAux_digit_run dpb hd run ts [] hrun hts (by simpa using hd), List.nil_append]

/-- Witness for C8: a non-digit token passes through; the maximal run
2,0,2,6 becomes its 2-digit groups; and `"2026"` packs to `["20","26"]`. -/
theorem packDigits_maximal_runs_witness :
    packDigits [[','], ['a']] 2 = [','] :: packDigits [['a']] 2 ∧
    packDigits [['2'], ['0'], ['2'], ['6']] 2 =
      specDigitGroups 2 ['2', '0', '2', '6'] ++ packDigits [] 2 ∧
    packDigits (tokenizeParagraph ['2', '0', '2', '6']) 2 =
      [['2', '0'], ['2', '6']] := by
  have h := packDigits_maximal_runs 2 (by decide)
  exact ⟨h.1 [','] [['a']] (by decide),
    h.2.1 [['2'], ['0'], ['2'], ['6']] [] (by decide) (Or.inl rfl),
    h.2.2⟩

end Wongoji
